import Mathlib

/-!
Shallow embedding of the helyim needle-index subsystem
(`src/helyim/src/storage/needle_map.rs` and
`src/helyim/src/storage/needle_value_map.rs`).

Modelling conventions:
* Rust `u64`/`u32` values are modelled as `Nat`; both decoded fields and
  metric counters stay far below their machine bounds in all statements
  (decoded keys are < 2^64 and offsets/sizes < 2^32 by construction of the
  16-byte records), so no wrap-around arithmetic arises.
* The Rust `HashMap<u64, NeedleValue>` is modelled as an association list
  with (invariantly) pairwise-distinct keys; `insert`/`remove` are the
  standard first-occurrence update/removal, which coincide with the hash
  map on every state reachable from the empty map.
* Fallible I/O is modelled by returning `σ × Option String`: the final
  state of the mutable closure together with `none` on success or
  `some msg` for the propagated error.  A short `read_exact` produces the
  standard "failed to fill whole buffer" error.
* Files are byte lists (`List Nat`, each entry < 256 where it matters).
-/

namespace Helyim

/-- Modelled from the spec: the `NeedleValue` (Location) record type lives in
`storage/needle.rs`, which is not among the shown sources; §3 of the spec
defines it as `{offset : u32, size : u32}`. -/
structure NeedleValue where
  offset : Nat
  size : Nat
deriving DecidableEq, Repr

/-- The backing key→location store, modelling `MemoryNeedleValueMap`'s
`HashMap<u64, NeedleValue>` as an association list. -/
abbrev NVMap : Type := List (Nat × NeedleValue)

/-- Rust `HashMap::get(&key).copied()` on the association-list model. -/
def NVMap.get (m : NVMap) (key : Nat) : Option NeedleValue :=
  (m.find? (fun e => e.1 == key)).map (fun e => e.2)

/-- Rust `HashMap::insert(key, value)` on the association-list model: returns the
previous value, and the updated map (new binding in front, old binding for
the key removed). -/
def NVMap.set (m : NVMap) (key : Nat) (value : NeedleValue) :
    Option NeedleValue × NVMap :=
  (m.get key, (key, value) :: m.eraseP (fun e => e.1 == key))

/-- Rust `HashMap::remove(&key)` on the association-list model. -/
def NVMap.delete (m : NVMap) (key : Nat) : Option NeedleValue × NVMap :=
  (m.get key, m.eraseP (fun e => e.1 == key))

/-- The keys currently bound in the store. -/
def NVMap.keys (m : NVMap) : List Nat := m.map Prod.fst

/-- Total byte size of the locations currently bound in the store. -/
def NVMap.sizeSum (m : NVMap) : Nat := (m.map (fun e => e.2.size)).sum

/-- The `struct Metric` of `needle_map.rs`. -/
structure Metric where
  maximum_file_key : Nat
  file_count : Nat
  deleted_count : Nat
  deleted_byte_count : Nat
  file_byte_count : Nat
deriving DecidableEq, Repr

/-- Rust `Metric::default()`: all counters zero. -/
def Metric.default : Metric :=
  { maximum_file_key := 0, file_count := 0, deleted_count := 0,
    deleted_byte_count := 0, file_byte_count := 0 }

/-- The `struct NeedleMapper` with the in-memory backing store. -/
structure NeedleMapper where
  needle_value_map : NVMap
  metric : Metric
deriving DecidableEq

/-- Rust `NeedleMapper::default()`: fresh empty store and zero metrics. -/
def NeedleMapper.default : NeedleMapper :=
  { needle_value_map := [], metric := Metric.default }

/-- Rust `NeedleMapper::set`: updates the maximum-key metric, always bumps
`file_count` and `file_byte_count`, inserts into the store and, when a
previous binding existed, additionally counts it as deleted. -/
def NeedleMapper.set (m : NeedleMapper) (key : Nat) (index : NeedleValue) :
    Option NeedleValue × NeedleMapper :=
  let metric1 : Metric :=
    { m.metric with
      maximum_file_key :=
        if key > m.metric.maximum_file_key then key
        else m.metric.maximum_file_key,
      file_count := m.metric.file_count + 1,
      file_byte_count := m.metric.file_byte_count + index.size }
  let old := (m.needle_value_map.set key index).1
  let nvm := (m.needle_value_map.set key index).2
  let metric2 : Metric :=
    match old with
    | some n =>
      { metric1 with
        deleted_count := metric1.deleted_count + 1,
        deleted_byte_count := metric1.deleted_byte_count + n.size }
    | none => metric1
  (old, { needle_value_map := nvm, metric := metric2 })

/-- Rust `NeedleMapper::delete`: removes the binding if present and counts the
removed bytes; metrics untouched otherwise. -/
def NeedleMapper.delete (m : NeedleMapper) (key : Nat) :
    Option NeedleValue × NeedleMapper :=
  let deleted := (m.needle_value_map.delete key).1
  let nvm := (m.needle_value_map.delete key).2
  let metric2 : Metric :=
    match deleted with
    | some n =>
      { m.metric with
        deleted_count := m.metric.deleted_count + 1,
        deleted_byte_count := m.metric.deleted_byte_count + n.size }
    | none => m.metric
  (deleted, { needle_value_map := nvm, metric := metric2 })

/-- Rust `NeedleMapper::get`: pure lookup, no metric side effects. -/
def NeedleMapper.get (m : NeedleMapper) (key : Nat) : Option NeedleValue :=
  m.needle_value_map.get key

/-- Metric accessor `file_count`. -/
def NeedleMapper.file_count (m : NeedleMapper) : Nat := m.metric.file_count

/-- Metric accessor `delete_count`. -/
def NeedleMapper.delete_count (m : NeedleMapper) : Nat := m.metric.deleted_count

/-- Metric accessor `deleted_byte_count`. -/
def NeedleMapper.deleted_byte_count (m : NeedleMapper) : Nat :=
  m.metric.deleted_byte_count

/-- Metric accessor `max_file_key`. -/
def NeedleMapper.max_file_key (m : NeedleMapper) : Nat :=
  m.metric.maximum_file_key

/-- Metric accessor `content_size`. -/
def NeedleMapper.content_size (m : NeedleMapper) : Nat :=
  m.metric.file_byte_count

/-- Big-endian value of a byte list, as folded by `bytes::Buf::get_u64` /
`get_u32`. -/
def beVal (bs : List Nat) : Nat := bs.foldl (fun a b => a * 256 + b) 0

/-- Decoder `idx_entry`: decode a 16-byte buffer into `(key, offset, size)` —
`get_u64` consumes bytes 0..8 big-endian, then `get_u32` bytes 8..12 and
`get_u32` bytes 12..16. -/
def idx_entry (buf : List Nat) : Nat × Nat × Nat :=
  (beVal (buf.take 8), beVal ((buf.drop 8).take 4), beVal ((buf.drop 12).take 4))

/-- The error message `std::io::Read::read_exact` produces on a short read. -/
def readExactErr : String := "failed to fill whole buffer"

/-- The iteration core of `walk_index_file`: perform the given number of
loop iterations over the remaining bytes of the file, each iteration doing
`read_exact` of 16 bytes (failing if fewer remain), decoding via
`idx_entry` and invoking the handler; stops at the first error, carrying
the handler state reached so far. -/
def walkLoop {σ : Type} (walk : σ → Nat × Nat × Nat → σ × Option String) :
    Nat → List Nat → σ → σ × Option String
  | 0, _, s => (s, none)
  | n + 1, bytes, s =>
    if bytes.length < 16 then (s, some readExactErr)
    else
      match walk s (idx_entry (bytes.take 16)) with
      | (s1, some e) => (s1, some e)
      | (s1, none) => walkLoop walk n (bytes.drop 16) s1

/-- Scanner `walk_index_file`: iterates `ceil(file_length / 16)` times, reading one
16-byte record per iteration and passing `(key, offset, size)` to the
handler; propagates the first read or handler error. -/
def walk_index_file {σ : Type} (file : List Nat) (s : σ)
    (walk : σ → Nat × Nat × Nat → σ × Option String) : σ × Option String :=
  walkLoop walk ((file.length + 15) / 16) file s

/-- The body of the closure passed by `NeedleMapper::load_idx_file` to
`walk_index_file`: tracks `(last_offset, last_size)` and applies each
record as a `set` (offset > 0) or a `delete` (offset == 0); never errors. -/
def load_step (st : Nat × Nat × NeedleMapper) (r : Nat × Nat × Nat) :
    (Nat × Nat × NeedleMapper) × Option String :=
  let key := r.1
  let offset := r.2.1
  let size := r.2.2
  let last :=
    if offset > st.1 then (offset, size) else (st.1, st.2.1)
  if offset > 0 then
    ((last.1, last.2, (st.2.2.set key ⟨offset, size⟩).2), none)
  else
    ((last.1, last.2, (st.2.2.delete key).2), none)

/-- Rust `NeedleMapper::load_idx_file`: replays the index file through
`walk_index_file` with `load_step`, mutating the mapper in place; returns
the mapper state reached (kept even on error, matching `&mut self`) and
the error, if any. -/
def NeedleMapper.load_idx_file (m : NeedleMapper) (file : List Nat) :
    NeedleMapper × Option String :=
  ((walk_index_file file (0, 0, m) load_step).1.2.2,
   (walk_index_file file (0, 0, m) load_step).2)

/-- The first `n` decoded 16-byte records of a byte list. -/
def recordsOf : Nat → List Nat → List (Nat × Nat × Nat)
  | 0, _ => []
  | n + 1, bytes => idx_entry (bytes.take 16) :: recordsOf n (bytes.drop 16)

/-- All complete decoded records of an index file, in file order. -/
def fileRecords (file : List Nat) : List (Nat × Nat × Nat) :=
  recordsOf (file.length / 16) file

/-- The state transformation one replayed record performs on the mapper:
`set` for a positive offset, `delete` for a zero offset. -/
def applyRecord (m : NeedleMapper) (r : Nat × Nat × Nat) : NeedleMapper :=
  if r.2.1 > 0 then (m.set r.1 ⟨r.2.1, r.2.2⟩).2 else (m.delete r.1).2

/-- Reference replay step, written from the spec's words (§4.4/§8): over a
plain partial map, a record with offset > 0 binds `key ↦ {offset, size}`
and a record with offset == 0 unbinds `key`. -/
def specReplayStep (m : Nat → Option NeedleValue) (r : Nat × Nat × Nat) :
    Nat → Option NeedleValue :=
  fun k =>
    if r.2.1 > 0 then
      (if k = r.1 then some ⟨r.2.1, r.2.2⟩ else m k)
    else
      (if k = r.1 then none else m k)

/-- Big-endian byte encoding of `n` in `w` bytes (most significant first). -/
def beBytes : Nat → Nat → List Nat
  | 0, _ => []
  | w + 1, n => beBytes w (n / 256) ++ [n % 256]

/-- Modelled from the spec: the index-record encoder is not among the shown
sources (records are written by the volume-owner side); §3/§4.2 fix the
layout as 16 bytes big-endian — key in bytes 0..8, offset in bytes 8..12,
size in bytes 12..16. -/
def encode (key offset size : Nat) : List Nat :=
  beBytes 8 key ++ beBytes 4 offset ++ beBytes 4 size

/-- Handler that merely counts its invocations, used to state how many
times the scanner invokes the handler. -/
def countStep (n : Nat) (_ : Nat × Nat × Nat) : Nat × Option String :=
  (n + 1, none)

/-- Nodup-keys well-formedness of a mapper's store: the invariant every
`HashMap`-backed state satisfies. -/
def NeedleMapper.WF (m : NeedleMapper) : Prop :=
  m.needle_value_map.keys.Nodup

instance (m : NeedleMapper) : Decidable m.WF := by
  unfold NeedleMapper.WF
  infer_instance

/-- The mapper states reachable from a fresh mapper by any sequence of
`set` / `delete` / `load_idx_file` calls. -/
inductive Reachable : NeedleMapper → Prop
  | init : Reachable NeedleMapper.default
  | set (m : NeedleMapper) (key : Nat) (v : NeedleValue) :
      Reachable m → Reachable (m.set key v).2
  | del (m : NeedleMapper) (key : Nat) :
      Reachable m → Reachable (m.delete key).2
  | load (m : NeedleMapper) (file : List Nat) :
      Reachable m → Reachable (m.load_idx_file file).1

/-! ### Association-list store lemmas -/

theorem NVMap.get_nil (k : Nat) : NVMap.get [] k = none := rfl

theorem NVMap.get_cons (hd : Nat × NeedleValue) (tl : NVMap) (k : Nat) :
    NVMap.get (hd :: tl) k =
      if hd.1 = k then some hd.2 else NVMap.get tl k := by
  by_cases h : hd.1 = k
  · simp [NVMap.get, List.find?_cons_of_pos, h]
  · simp [NVMap.get, List.find?_cons_of_neg, h]

theorem NVMap.keys_nil : NVMap.keys [] = [] := rfl

theorem NVMap.keys_cons (hd : Nat × NeedleValue) (tl : NVMap) :
    NVMap.keys (hd :: tl) = hd.1 :: NVMap.keys tl := rfl

theorem NVMap.get_eq_none_of_not_mem (m : NVMap) (k : Nat)
    (h : k ∉ NVMap.keys m) : m.get k = none := by
  induction m with
  | nil => rfl
  | cons hd tl ih =>
    rw [NVMap.keys_cons, List.mem_cons] at h
    push_neg at h
    rw [NVMap.get_cons, if_neg (fun hc => h.1 hc.symm)]
    exact ih h.2

theorem NVMap.eraseP_of_get_none (m : NVMap) (k : Nat)
    (h : m.get k = none) : m.eraseP (fun e => e.1 == k) = m := by
  induction m with
  | nil => rfl
  | cons hd tl ih =>
    rw [NVMap.get_cons] at h
    by_cases hk : hd.1 = k
    · simp [hk] at h
    · rw [List.eraseP_cons_of_neg (by simpa using hk)]
      rw [if_neg hk] at h
      rw [ih h]

theorem NVMap.get_eraseP_ne (m : NVMap) (k k' : Nat) (h : k ≠ k') :
    NVMap.get (m.eraseP (fun e => e.1 == k)) k' = m.get k' := by
  induction m with
  | nil => rfl
  | cons hd tl ih =>
    by_cases hk : hd.1 = k
    · rw [List.eraseP_cons_of_pos (by simpa using hk)]
      rw [NVMap.get_cons, if_neg (by omega)]
    · rw [List.eraseP_cons_of_neg (by simpa using hk)]
      rw [NVMap.get_cons, NVMap.get_cons, ih]

theorem NVMap.get_eraseP_self (m : NVMap) (k : Nat)
    (h : (NVMap.keys m).Nodup) :
    NVMap.get (m.eraseP (fun e => e.1 == k)) k = none := by
  induction m with
  | nil => rfl
  | cons hd tl ih =>
    rw [NVMap.keys_cons, List.nodup_cons] at h
    by_cases hk : hd.1 = k
    · rw [List.eraseP_cons_of_pos (by simpa using hk)]
      exact NVMap.get_eq_none_of_not_mem tl k (hk ▸ h.1)
    · rw [List.eraseP_cons_of_neg (by simpa using hk)]
      rw [NVMap.get_cons, if_neg hk]
      exact ih h.2

theorem NVMap.length_eraseP_of_get_some (m : NVMap) (k : Nat)
    (n : NeedleValue) (h : m.get k = some n) :
    (m.eraseP (fun e => e.1 == k)).length + 1 = m.length := by
  induction m with
  | nil => simp [NVMap.get] at h
  | cons hd tl ih =>
    rw [NVMap.get_cons] at h
    by_cases hk : hd.1 = k
    · rw [List.eraseP_cons_of_pos (by simpa using hk)]
      simp
    · rw [List.eraseP_cons_of_neg (by simpa using hk)]
      rw [if_neg hk] at h
      simp only [List.length_cons]
      have := ih h
      omega

theorem NVMap.sizeSum_eraseP_of_get_some (m : NVMap) (k : Nat)
    (n : NeedleValue) (h : m.get k = some n) :
    NVMap.sizeSum (m.eraseP (fun e => e.1 == k)) + n.size = m.sizeSum := by
  induction m with
  | nil => simp [NVMap.get] at h
  | cons hd tl ih =>
    rw [NVMap.get_cons] at h
    by_cases hk : hd.1 = k
    · rw [List.eraseP_cons_of_pos (by simpa using hk)]
      rw [if_pos hk] at h
      cases h
      simp [NVMap.sizeSum]
      omega
    · rw [List.eraseP_cons_of_neg (by simpa using hk)]
      rw [if_neg hk] at h
      simp only [NVMap.sizeSum, List.map_cons, List.sum_cons] at ih ⊢
      have := ih h
      omega

theorem NVMap.keys_eraseP_sublist (m : NVMap) (k : Nat) :
    (NVMap.keys (m.eraseP (fun e => e.1 == k))).Sublist (NVMap.keys m) :=
  (List.eraseP_sublist m).map Prod.fst

theorem NVMap.nodup_keys_eraseP (m : NVMap) (k : Nat)
    (h : (NVMap.keys m).Nodup) :
    (NVMap.keys (m.eraseP (fun e => e.1 == k))).Nodup :=
  List.Nodup.sublist (NVMap.keys_eraseP_sublist m k) h

theorem NVMap.not_mem_keys_eraseP (m : NVMap) (k : Nat)
    (h : (NVMap.keys m).Nodup) :
    k ∉ NVMap.keys (m.eraseP (fun e => e.1 == k)) := by
  induction m with
  | nil => simp [NVMap.keys]
  | cons hd tl ih =>
    rw [NVMap.keys_cons, List.nodup_cons] at h
    by_cases hk : hd.1 = k
    · rw [List.eraseP_cons_of_pos (by simpa using hk)]
      exact hk ▸ h.1
    · rw [List.eraseP_cons_of_neg (by simpa using hk)]
      rw [NVMap.keys_cons, List.mem_cons]
      push_neg
      exact ⟨fun hc => hk hc.symm, ih h.2⟩

/-! ### Mapper operation characterizations -/

theorem NeedleMapper.set_of_get_none (m : NeedleMapper) (k : Nat)
    (v : NeedleValue) (h : m.get k = none) :
    m.set k v =
      (none,
       { needle_value_map :=
           (k, v) :: m.needle_value_map.eraseP (fun e => e.1 == k),
         metric :=
           { maximum_file_key :=
               if k > m.metric.maximum_file_key then k
               else m.metric.maximum_file_key,
             file_count := m.metric.file_count + 1,
             deleted_count := m.metric.deleted_count,
             deleted_byte_count := m.metric.deleted_byte_count,
             file_byte_count := m.metric.file_byte_count + v.size } }) := by
  have h' : m.needle_value_map.get k = none := h
  simp [NeedleMapper.set, NVMap.set, h']

theorem NeedleMapper.set_of_get_some (m : NeedleMapper) (k : Nat)
    (v n : NeedleValue) (h : m.get k = some n) :
    m.set k v =
      (some n,
       { needle_value_map :=
           (k, v) :: m.needle_value_map.eraseP (fun e => e.1 == k),
         metric :=
           { maximum_file_key :=
               if k > m.metric.maximum_file_key then k
               else m.metric.maximum_file_key,
             file_count := m.metric.file_count + 1,
             deleted_count := m.metric.deleted_count + 1,
             deleted_byte_count := m.metric.deleted_byte_count + n.size,
             file_byte_count := m.metric.file_byte_count + v.size } }) := by
  have h' : m.needle_value_map.get k = some n := h
  simp [NeedleMapper.set, NVMap.set, h']

theorem NeedleMapper.delete_of_get_none (m : NeedleMapper) (k : Nat)
    (h : m.get k = none) : m.delete k = (none, m) := by
  have h' : m.needle_value_map.get k = none := h
  obtain ⟨nvm, mt⟩ := m
  simp only [NeedleMapper.get] at h'
  simp [NeedleMapper.delete, NVMap.delete, h', NVMap.eraseP_of_get_none nvm k h']

theorem NeedleMapper.delete_of_get_some (m : NeedleMapper) (k : Nat)
    (n : NeedleValue) (h : m.get k = some n) :
    m.delete k =
      (some n,
       { needle_value_map := m.needle_value_map.eraseP (fun e => e.1 == k),
         metric :=
           { m.metric with
             deleted_count := m.metric.deleted_count + 1,
             deleted_byte_count := m.metric.deleted_byte_count + n.size } }) := by
  have h' : m.needle_value_map.get k = some n := h
  simp [NeedleMapper.delete, NVMap.delete, h']

theorem NeedleMapper.set_nvm (m : NeedleMapper) (k : Nat) (v : NeedleValue) :
    (m.set k v).2.needle_value_map =
      (k, v) :: m.needle_value_map.eraseP (fun e => e.1 == k) := by
  cases h : m.get k
  · rw [NeedleMapper.set_of_get_none m k v h]
  · rw [NeedleMapper.set_of_get_some m k v _ h]

theorem NeedleMapper.get_set (m : NeedleMapper) (k : Nat) (v : NeedleValue)
    (k' : Nat) :
    (m.set k v).2.get k' = if k' = k then some v else m.get k' := by
  show NVMap.get (m.set k v).2.needle_value_map k' = _
  rw [NeedleMapper.set_nvm, NVMap.get_cons]
  by_cases hk : k' = k
  · simp [hk]
  · rw [if_neg (fun hc => hk hc.symm), if_neg hk]
    exact NVMap.get_eraseP_ne m.needle_value_map k k' (fun hc => hk hc.symm)

theorem NeedleMapper.delete_nvm (m : NeedleMapper) (k : Nat) :
    (m.delete k).2.needle_value_map =
      m.needle_value_map.eraseP (fun e => e.1 == k) := by
  cases h : m.get k
  · rw [NeedleMapper.delete_of_get_none m k h,
      NVMap.eraseP_of_get_none m.needle_value_map k h]
  · rw [NeedleMapper.delete_of_get_some m k _ h]

theorem NeedleMapper.get_delete (m : NeedleMapper) (k : Nat) (k' : Nat)
    (hwf : m.WF) :
    (m.delete k).2.get k' = if k' = k then none else m.get k' := by
  show NVMap.get (m.delete k).2.needle_value_map k' = _
  rw [NeedleMapper.delete_nvm]
  by_cases hk : k' = k
  · rw [if_pos hk, hk]
    exact NVMap.get_eraseP_self m.needle_value_map k hwf
  · rw [if_neg hk]
    exact NVMap.get_eraseP_ne m.needle_value_map k k' (fun hc => hk hc.symm)

/-! ### Scanner lemmas -/

theorem load_step_snd (st : Nat × Nat × NeedleMapper) (r : Nat × Nat × Nat) :
    (load_step st r).2 = none := by
  simp only [load_step]
  split <;> rfl

theorem load_step_mapper (st : Nat × Nat × NeedleMapper)
    (r : Nat × Nat × Nat) :
    (load_step st r).1.2.2 = applyRecord st.2.2 r := by
  simp only [load_step, applyRecord]
  split <;> rfl

theorem recordsOf_length (n : Nat) (bytes : List Nat) :
    (recordsOf n bytes).length = n := by
  induction n generalizing bytes with
  | zero => rfl
  | succ n ih => simp [recordsOf, ih]

theorem walkLoop_noerr_ok {σ : Type}
    (walk : σ → Nat × Nat × Nat → σ × Option String)
    (hw : ∀ s r, (walk s r).2 = none)
    (n : Nat) (bytes : List Nat) (s : σ) (h : 16 * n ≤ bytes.length) :
    walkLoop walk n bytes s =
      ((recordsOf n bytes).foldl (fun s r => (walk s r).1) s, none) := by
  induction n generalizing bytes s with
  | zero => simp [walkLoop, recordsOf]
  | succ n ih =>
    have hlen : ¬ bytes.length < 16 := by omega
    rw [walkLoop, if_neg hlen]
    rcases hww : walk s (idx_entry (bytes.take 16)) with ⟨s1, e⟩
    have he : e = none := by
      have := hw s (idx_entry (bytes.take 16))
      rw [hww] at this
      exact this
    subst he
    have hlen2 : 16 * n ≤ (bytes.drop 16).length := by
      simp only [List.length_drop]
      omega
    dsimp only
    rw [ih (bytes.drop 16) s1 hlen2]
    simp only [recordsOf, List.foldl_cons, hww]

theorem walkLoop_noerr_err {σ : Type}
    (walk : σ → Nat × Nat × Nat → σ × Option String)
    (hw : ∀ s r, (walk s r).2 = none)
    (q : Nat) (bytes : List Nat) (s : σ)
    (h1 : 16 * q ≤ bytes.length) (h2 : bytes.length < 16 * q + 16) :
    walkLoop walk (q + 1) bytes s =
      ((recordsOf q bytes).foldl (fun s r => (walk s r).1) s,
       some readExactErr) := by
  induction q generalizing bytes s with
  | zero =>
    have hlen : bytes.length < 16 := by omega
    rw [walkLoop, if_pos hlen]
    simp [recordsOf]
  | succ q ih =>
    have hlen : ¬ bytes.length < 16 := by omega
    rw [walkLoop, if_neg hlen]
    rcases hww : walk s (idx_entry (bytes.take 16)) with ⟨s1, e⟩
    have he : e = none := by
      have := hw s (idx_entry (bytes.take 16))
      rw [hww] at this
      exact this
    subst he
    have hd1 : 16 * q ≤ (bytes.drop 16).length := by
      simp only [List.length_drop]
      omega
    have hd2 : (bytes.drop 16).length < 16 * q + 16 := by
      simp only [List.length_drop]
      omega
    dsimp only
    rw [ih (bytes.drop 16) s1 hd1 hd2]
    simp only [recordsOf, List.foldl_cons, hww]

theorem walkLoop_err_isSome {σ : Type}
    (walk : σ → Nat × Nat × Nat → σ × Option String)
    (n : Nat) (bytes : List Nat) (s : σ) (h : bytes.length / 16 < n) :
    ((walkLoop walk n bytes s).2).isSome = true := by
  induction n generalizing bytes s with
  | zero => omega
  | succ n ih =>
    by_cases hlen : bytes.length < 16
    · rw [walkLoop, if_pos hlen]
      rfl
    · rw [walkLoop, if_neg hlen]
      rcases hww : walk s (idx_entry (bytes.take 16)) with ⟨s1, e⟩
      cases e with
      | some err => rfl
      | none =>
        apply ih
        simp only [List.length_drop]
        omega

theorem walkLoop_preserve {σ : Type} (P : σ → Prop)
    (walk : σ → Nat × Nat × Nat → σ × Option String)
    (hP : ∀ s r, P s → P (walk s r).1)
    (n : Nat) (bytes : List Nat) (s : σ) (h : P s) :
    P (walkLoop walk n bytes s).1 := by
  induction n generalizing bytes s with
  | zero => exact h
  | succ n ih =>
    by_cases hlen : bytes.length < 16
    · rw [walkLoop, if_pos hlen]
      exact h
    · rw [walkLoop, if_neg hlen]
      rcases hww : walk s (idx_entry (bytes.take 16)) with ⟨s1, e⟩
      have hs1 : P s1 := by
        have := hP s (idx_entry (bytes.take 16)) h
        rw [hww] at this
        exact this
      cases e with
      | some err => exact hs1
      | none => exact ih (bytes.drop 16) s1 hs1

theorem foldl_load_step_mapper (rs : List (Nat × Nat × Nat))
    (st : Nat × Nat × NeedleMapper) :
    (rs.foldl (fun s r => (load_step s r).1) st).2.2 =
      rs.foldl applyRecord st.2.2 := by
  induction rs generalizing st with
  | nil => rfl
  | cons r rs ih =>
    simp only [List.foldl_cons]
    rw [ih, load_step_mapper]

/-! ### Load characterizations -/

theorem load_idx_file_ok (m : NeedleMapper) (file : List Nat)
    (h : 16 ∣ file.length) :
    m.load_idx_file file = ((fileRecords file).foldl applyRecord m, none) := by
  have hceil : (file.length + 15) / 16 = file.length / 16 := by omega
  have hle : 16 * (file.length / 16) ≤ file.length := by omega
  have hwalk := walkLoop_noerr_ok load_step load_step_snd
    (file.length / 16) file (0, 0, m) hle
  simp only [NeedleMapper.load_idx_file, walk_index_file, hceil, hwalk,
    fileRecords]
  exact congrArg (fun x => (x, none))
    (foldl_load_step_mapper (recordsOf (file.length / 16) file) (0, 0, m))

theorem load_idx_file_err (m : NeedleMapper) (file : List Nat)
    (h : ¬ 16 ∣ file.length) :
    m.load_idx_file file =
      ((fileRecords file).foldl applyRecord m, some readExactErr) := by
  have hceil : (file.length + 15) / 16 = file.length / 16 + 1 := by omega
  have hle : 16 * (file.length / 16) ≤ file.length := by omega
  have hlt : file.length < 16 * (file.length / 16) + 16 := by omega
  have hwalk := walkLoop_noerr_err load_step load_step_snd
    (file.length / 16) file (0, 0, m) hle hlt
  simp only [NeedleMapper.load_idx_file, walk_index_file, hceil, hwalk,
    fileRecords]
  exact congrArg (fun x => (x, some readExactErr))
    (foldl_load_step_mapper (recordsOf (file.length / 16) file) (0, 0, m))

/-! ### Metric monotonicity -/

/-- Componentwise order on the five usage metrics. -/
def MetricLe (a b : Metric) : Prop :=
  a.maximum_file_key ≤ b.maximum_file_key ∧
  a.file_count ≤ b.file_count ∧
  a.deleted_count ≤ b.deleted_count ∧
  a.deleted_byte_count ≤ b.deleted_byte_count ∧
  a.file_byte_count ≤ b.file_byte_count

theorem MetricLe.rfl (a : Metric) : MetricLe a a := by
  refine ⟨le_refl _, le_refl _, le_refl _, le_refl _, le_refl _⟩

theorem MetricLe.trans {a b c : Metric} (h1 : MetricLe a b)
    (h2 : MetricLe b c) : MetricLe a c := by
  obtain ⟨x1, x2, x3, x4, x5⟩ := h1
  obtain ⟨y1, y2, y3, y4, y5⟩ := h2
  exact ⟨x1.trans y1, x2.trans y2, x3.trans y3, x4.trans y4, x5.trans y5⟩

theorem set_metricLe (m : NeedleMapper) (k : Nat) (v : NeedleValue) :
    MetricLe m.metric (m.set k v).2.metric := by
  have hmax : m.metric.maximum_file_key ≤
      (if k > m.metric.maximum_file_key then k
       else m.metric.maximum_file_key) := by
    split <;> omega
  cases h : m.get k
  · rw [NeedleMapper.set_of_get_none m k v h]
    exact ⟨hmax, by dsimp only; omega, le_refl _, le_refl _, by dsimp only; omega⟩
  · rw [NeedleMapper.set_of_get_some m k v _ h]
    exact ⟨hmax, by dsimp only; omega, by dsimp only; omega,
      by dsimp only; omega, by dsimp only; omega⟩

theorem delete_metricLe (m : NeedleMapper) (k : Nat) :
    MetricLe m.metric (m.delete k).2.metric := by
  cases h : m.get k
  · rw [NeedleMapper.delete_of_get_none m k h]
    exact MetricLe.rfl _
  · rw [NeedleMapper.delete_of_get_some m k _ h]
    exact ⟨le_refl _, le_refl _, by dsimp only; omega,
      by dsimp only; omega, le_refl _⟩

theorem applyRecord_metricLe (m : NeedleMapper) (r : Nat × Nat × Nat) :
    MetricLe m.metric (applyRecord m r).metric := by
  unfold applyRecord
  split
  · exact set_metricLe m r.1 ⟨r.2.1, r.2.2⟩
  · exact delete_metricLe m r.1

theorem load_metricLe (m : NeedleMapper) (file : List Nat) :
    MetricLe m.metric (m.load_idx_file file).1.metric := by
  have hP : ∀ (st : Nat × Nat × NeedleMapper) (r : Nat × Nat × Nat),
      MetricLe m.metric st.2.2.metric →
      MetricLe m.metric (load_step st r).1.2.2.metric := by
    intro st r hst
    rw [load_step_mapper]
    exact hst.trans (applyRecord_metricLe st.2.2 r)
  exact walkLoop_preserve (fun st => MetricLe m.metric st.2.2.metric)
    load_step hP ((file.length + 15) / 16) file (0, 0, m) (MetricLe.rfl _)

/-! ### Ledger invariant -/

theorem NVMap.not_mem_keys_of_get_none (m : NVMap) (k : Nat)
    (h : m.get k = none) : k ∉ NVMap.keys m := by
  induction m with
  | nil => simp [NVMap.keys]
  | cons hd tl ih =>
    rw [NVMap.get_cons] at h
    by_cases hk : hd.1 = k
    · simp [hk] at h
    · rw [if_neg hk] at h
      rw [NVMap.keys_cons, List.mem_cons]
      push_neg
      exact ⟨fun hc => hk hc.symm, ih h⟩

/-- The accounting invariant tying the metrics to the live map contents:
nodup keys, apply count = deleted count + live-entry count, applied bytes
= deleted bytes + live bytes. -/
def Ledger (m : NeedleMapper) : Prop :=
  m.WF ∧
  m.metric.file_count =
    m.metric.deleted_count + m.needle_value_map.length ∧
  m.metric.file_byte_count =
    m.metric.deleted_byte_count + NVMap.sizeSum m.needle_value_map

theorem ledger_default : Ledger NeedleMapper.default := by
  refine ⟨by simp [NeedleMapper.WF, NeedleMapper.default, NVMap.keys], rfl, rfl⟩

theorem ledger_set (m : NeedleMapper) (k : Nat) (v : NeedleValue)
    (h : Ledger m) : Ledger (m.set k v).2 := by
  obtain ⟨hwf, hcount, hbytes⟩ := h
  cases hg : m.get k with
  | none =>
    have hg' : m.needle_value_map.get k = none := hg
    rw [NeedleMapper.set_of_get_none m k v hg]
    have herase := NVMap.eraseP_of_get_none m.needle_value_map k hg'
    refine ⟨?_, ?_, ?_⟩
    · show (NVMap.keys ((k, v) :: _)).Nodup
      rw [NVMap.keys_cons, List.nodup_cons, herase]
      exact ⟨NVMap.not_mem_keys_of_get_none m.needle_value_map k hg', hwf⟩
    · simp only [List.length_cons, herase]
      omega
    · simp only [NVMap.sizeSum, List.map_cons, List.sum_cons, herase]
      simp only [NVMap.sizeSum] at hbytes
      omega
  | some n =>
    have hg' : m.needle_value_map.get k = some n := hg
    rw [NeedleMapper.set_of_get_some m k v n hg]
    have hlen := NVMap.length_eraseP_of_get_some m.needle_value_map k n hg'
    have hsum := NVMap.sizeSum_eraseP_of_get_some m.needle_value_map k n hg'
    refine ⟨?_, ?_, ?_⟩
    · show (NVMap.keys ((k, v) :: _)).Nodup
      rw [NVMap.keys_cons, List.nodup_cons]
      exact ⟨NVMap.not_mem_keys_eraseP m.needle_value_map k hwf,
        NVMap.nodup_keys_eraseP m.needle_value_map k hwf⟩
    · simp only [List.length_cons]
      omega
    · simp only [NVMap.sizeSum, List.map_cons, List.sum_cons]
      simp only [NVMap.sizeSum] at hsum hbytes
      omega

theorem ledger_delete (m : NeedleMapper) (k : Nat)
    (h : Ledger m) : Ledger (m.delete k).2 := by
  obtain ⟨hwf, hcount, hbytes⟩ := h
  cases hg : m.get k with
  | none =>
    rw [NeedleMapper.delete_of_get_none m k hg]
    exact ⟨hwf, hcount, hbytes⟩
  | some n =>
    have hg' : m.needle_value_map.get k = some n := hg
    rw [NeedleMapper.delete_of_get_some m k n hg]
    dsimp only
    have hlen := NVMap.length_eraseP_of_get_some m.needle_value_map k n hg'
    have hsum := NVMap.sizeSum_eraseP_of_get_some m.needle_value_map k n hg'
    refine ⟨?_, ?_, ?_⟩
    · exact NVMap.nodup_keys_eraseP m.needle_value_map k hwf
    · dsimp only
      omega
    · dsimp only
      simp only [NVMap.sizeSum] at hsum hbytes ⊢
      omega

theorem ledger_applyRecord (m : NeedleMapper) (r : Nat × Nat × Nat)
    (h : Ledger m) : Ledger (applyRecord m r) := by
  unfold applyRecord
  split
  · exact ledger_set m r.1 ⟨r.2.1, r.2.2⟩ h
  · exact ledger_delete m r.1 h

theorem ledger_load (m : NeedleMapper) (file : List Nat)
    (h : Ledger m) : Ledger (m.load_idx_file file).1 := by
  have hP : ∀ (st : Nat × Nat × NeedleMapper) (r : Nat × Nat × Nat),
      Ledger st.2.2 → Ledger (load_step st r).1.2.2 := by
    intro st r hst
    rw [load_step_mapper]
    exact ledger_applyRecord st.2.2 r hst
  exact walkLoop_preserve (fun st => Ledger st.2.2)
    load_step hP ((file.length + 15) / 16) file (0, 0, m) h

theorem ledger_reachable (m : NeedleMapper) (h : Reachable m) : Ledger m := by
  induction h with
  | init => exact ledger_default
  | set m k v _ ih => exact ledger_set m k v ih
  | del m k _ ih => exact ledger_delete m k ih
  | load m file _ ih => exact ledger_load m file ih

/-! ### Maximum-key bound -/

/-- Every live key is bounded by the maximum-key metric. -/
def KeyBound (m : NeedleMapper) : Prop :=
  ∀ k ∈ NVMap.keys m.needle_value_map, k ≤ m.metric.maximum_file_key

theorem keyBound_default : KeyBound NeedleMapper.default := by
  intro k hk
  simp [NeedleMapper.default, NVMap.keys] at hk

theorem keyBound_set (m : NeedleMapper) (k : Nat) (v : NeedleValue)
    (h : KeyBound m) : KeyBound (m.set k v).2 := by
  intro k' hk'
  rw [NeedleMapper.set_nvm, NVMap.keys_cons, List.mem_cons] at hk'
  have hmet : (m.set k v).2.metric.maximum_file_key =
      if k > m.metric.maximum_file_key then k
      else m.metric.maximum_file_key := by
    cases hg : m.get k
    · rw [NeedleMapper.set_of_get_none m k v hg]
    · rw [NeedleMapper.set_of_get_some m k v _ hg]
  rw [hmet]
  rcases hk' with hk' | hk'
  · subst hk'
    split <;> omega
  · have hmem : k' ∈ NVMap.keys m.needle_value_map :=
      (NVMap.keys_eraseP_sublist m.needle_value_map k).mem hk'
    have := h k' hmem
    split <;> omega

theorem keyBound_delete (m : NeedleMapper) (k : Nat)
    (h : KeyBound m) : KeyBound (m.delete k).2 := by
  intro k' hk'
  rw [NeedleMapper.delete_nvm] at hk'
  have hmem : k' ∈ NVMap.keys m.needle_value_map :=
    (NVMap.keys_eraseP_sublist m.needle_value_map k).mem hk'
  have hmet : (m.delete k).2.metric.maximum_file_key =
      m.metric.maximum_file_key := by
    cases hg : m.get k
    · rw [NeedleMapper.delete_of_get_none m k hg]
    · rw [NeedleMapper.delete_of_get_some m k _ hg]
  rw [hmet]
  exact h k' hmem

theorem keyBound_applyRecord (m : NeedleMapper) (r : Nat × Nat × Nat)
    (h : KeyBound m) : KeyBound (applyRecord m r) := by
  unfold applyRecord
  split
  · exact keyBound_set m r.1 ⟨r.2.1, r.2.2⟩ h
  · exact keyBound_delete m r.1 h

theorem keyBound_load (m : NeedleMapper) (file : List Nat)
    (h : KeyBound m) : KeyBound (m.load_idx_file file).1 := by
  have hP : ∀ (st : Nat × Nat × NeedleMapper) (r : Nat × Nat × Nat),
      KeyBound st.2.2 → KeyBound (load_step st r).1.2.2 := by
    intro st r hst
    rw [load_step_mapper]
    exact keyBound_applyRecord st.2.2 r hst
  exact walkLoop_preserve (fun st => KeyBound st.2.2)
    load_step hP ((file.length + 15) / 16) file (0, 0, m) h

theorem keyBound_reachable (m : NeedleMapper) (h : Reachable m) :
    KeyBound m := by
  induction h with
  | init => exact keyBound_default
  | set m k v _ ih => exact keyBound_set m k v ih
  | del m k _ ih => exact keyBound_delete m k ih
  | load m file _ ih => exact keyBound_load m file ih

/-! ### Codec lemmas -/

theorem beBytes_length (w n : Nat) : (beBytes w n).length = w := by
  induction w generalizing n with
  | zero => rfl
  | succ w ih => simp [beBytes, ih]

theorem beVal_append_singleton (xs : List Nat) (b : Nat) :
    beVal (xs ++ [b]) = beVal xs * 256 + b := by
  simp [beVal, List.foldl_append]

theorem beVal_beBytes (w n : Nat) : beVal (beBytes w n) = n % 256 ^ w := by
  induction w generalizing n with
  | zero => simp [beBytes, beVal, Nat.mod_one]
  | succ w ih =>
    rw [beBytes, beVal_append_singleton, ih]
    have h1 : (256 : Nat) ∣ 256 ^ (w + 1) :=
      dvd_pow_self 256 (Nat.succ_ne_zero w)
    have h2 : n / 256 % 256 ^ w = n % 256 ^ (w + 1) / 256 := by
      rw [pow_succ, mul_comm (256 ^ w) 256, Nat.mod_mul_right_div_self]
    have h3 : n % 256 = n % 256 ^ (w + 1) % 256 :=
      (Nat.mod_mod_of_dvd n h1).symm
    rw [h2, h3]
    omega

theorem idx_entry_encode (key offset size : Nat) (hk : key < 2 ^ 64)
    (ho : offset < 2 ^ 32) (hs : size < 2 ^ 32) :
    idx_entry (encode key offset size) = (key, offset, size) := by
  have l8 : (beBytes 8 key).length = 8 := beBytes_length 8 key
  have l4o : (beBytes 4 offset).length = 4 := beBytes_length 4 offset
  have l12 : (beBytes 8 key ++ beBytes 4 offset).length = 12 := by
    simp [l8, l4o]
  have htake8 : (encode key offset size).take 8 = beBytes 8 key := by
    unfold encode
    rw [List.append_assoc, List.take_left' l8]
  have hdrop8 : (encode key offset size).drop 8 =
      beBytes 4 offset ++ beBytes 4 size := by
    unfold encode
    rw [List.append_assoc, List.drop_left' l8]
  have hdrop12 : (encode key offset size).drop 12 = beBytes 4 size := by
    unfold encode
    rw [List.drop_left' l12]
  have hoff : (beBytes 4 offset ++ beBytes 4 size).take 4 = beBytes 4 offset :=
    List.take_left' l4o
  have hsize : (beBytes 4 size).take 4 = beBytes 4 size := by
    apply List.take_of_length_le
    rw [beBytes_length]
  unfold idx_entry
  rw [htake8, hdrop8, hdrop12, hoff, hsize]
  rw [beVal_beBytes, beVal_beBytes, beVal_beBytes]
  have e8 : (256 : Nat) ^ 8 = 2 ^ 64 := by norm_num
  have e4 : (256 : Nat) ^ 4 = 2 ^ 32 := by norm_num
  rw [e8, e4, Nat.mod_eq_of_lt hk, Nat.mod_eq_of_lt ho, Nat.mod_eq_of_lt hs]

/-! ### Replay / reference-fold equivalence -/

theorem WF_set (m : NeedleMapper) (k : Nat) (v : NeedleValue)
    (h : m.WF) : (m.set k v).2.WF := by
  show (NVMap.keys (m.set k v).2.needle_value_map).Nodup
  rw [NeedleMapper.set_nvm, NVMap.keys_cons, List.nodup_cons]
  exact ⟨NVMap.not_mem_keys_eraseP m.needle_value_map k h,
    NVMap.nodup_keys_eraseP m.needle_value_map k h⟩

theorem WF_delete (m : NeedleMapper) (k : Nat) (h : m.WF) :
    (m.delete k).2.WF := by
  show (NVMap.keys (m.delete k).2.needle_value_map).Nodup
  rw [NeedleMapper.delete_nvm]
  exact NVMap.nodup_keys_eraseP m.needle_value_map k h

theorem WF_applyRecord (m : NeedleMapper) (r : Nat × Nat × Nat)
    (h : m.WF) : (applyRecord m r).WF := by
  unfold applyRecord
  split
  · exact WF_set m r.1 ⟨r.2.1, r.2.2⟩ h
  · exact WF_delete m r.1 h

theorem get_applyRecord (m : NeedleMapper) (r : Nat × Nat × Nat) (k : Nat)
    (hwf : m.WF) :
    (applyRecord m r).get k = specReplayStep (fun x => m.get x) r k := by
  by_cases hr : r.2.1 > 0
  · simp only [applyRecord, specReplayStep, if_pos hr]
    rw [NeedleMapper.get_set]
  · simp only [applyRecord, specReplayStep, if_neg hr]
    rw [NeedleMapper.get_delete m r.1 k hwf]

theorem foldl_applyRecord_get (rs : List (Nat × Nat × Nat))
    (m : NeedleMapper) (k : Nat) (hwf : m.WF) :
    (rs.foldl applyRecord m).get k =
      rs.foldl specReplayStep (fun x => m.get x) k := by
  induction rs generalizing m with
  | nil => rfl
  | cons r rs ih =>
    simp only [List.foldl_cons]
    rw [ih (applyRecord m r) (WF_applyRecord m r hwf)]
    have hstep : (fun x => (applyRecord m r).get x) =
        specReplayStep (fun x => m.get x) r :=
      funext (fun x => get_applyRecord m r x hwf)
    rw [hstep]

/-! ### Accessor-level helpers -/

theorem set_fst (m : NeedleMapper) (k : Nat) (v : NeedleValue) :
    (m.set k v).1 = m.get k := rfl

theorem set_file_count (m : NeedleMapper) (k : Nat) (v : NeedleValue) :
    (m.set k v).2.file_count = m.file_count + 1 := by
  cases hg : m.get k
  · rw [NeedleMapper.set_of_get_none m k v hg]
    rfl
  · rw [NeedleMapper.set_of_get_some m k v _ hg]
    rfl

theorem set_content_size (m : NeedleMapper) (k : Nat) (v : NeedleValue) :
    (m.set k v).2.content_size = m.content_size + v.size := by
  cases hg : m.get k
  · rw [NeedleMapper.set_of_get_none m k v hg]
    rfl
  · rw [NeedleMapper.set_of_get_some m k v _ hg]
    rfl

theorem set_deleted_of_some (m : NeedleMapper) (k : Nat) (v n : NeedleValue)
    (h : m.get k = some n) :
    (m.set k v).2.delete_count = m.delete_count + 1 ∧
    (m.set k v).2.deleted_byte_count = m.deleted_byte_count + n.size := by
  rw [NeedleMapper.set_of_get_some m k v n h]
  exact ⟨rfl, rfl⟩

theorem if_gt_eq_max (a b : Nat) : (if b > a then b else a) = max a b := by
  rw [Nat.max_def]
  split <;> split <;> omega

theorem set_max_file_key (m : NeedleMapper) (k : Nat) (v : NeedleValue) :
    (m.set k v).2.max_file_key = max m.max_file_key k := by
  cases hg : m.get k
  · rw [NeedleMapper.set_of_get_none m k v hg]
    exact if_gt_eq_max m.metric.maximum_file_key k
  · rw [NeedleMapper.set_of_get_some m k v _ hg]
    exact if_gt_eq_max m.metric.maximum_file_key k

theorem delete_max_file_key (m : NeedleMapper) (k : Nat) :
    (m.delete k).2.max_file_key = m.max_file_key := by
  cases hg : m.get k
  · rw [NeedleMapper.delete_of_get_none m k hg]
  · rw [NeedleMapper.delete_of_get_some m k _ hg]
    rfl

theorem foldl_countStep (rs : List (Nat × Nat × Nat)) (c : Nat) :
    rs.foldl (fun s r => (countStep s r).1) c = c + rs.length := by
  induction rs generalizing c with
  | nil => rfl
  | cons r rs ih =>
    simp only [List.foldl_cons, List.length_cons]
    rw [ih]
    show c + 1 + rs.length = c + (rs.length + 1)
    omega

theorem countStep_snd (s : Nat) (r : Nat × Nat × Nat) :
    (countStep s r).2 = none := rfl

/-! ### Claim theorems -/

/-- Concrete scenario A index file: records `(1,100,50)`, `(2,200,30)`,
`(1,0,0)` in the 16-byte big-endian layout. -/
def fileA : List Nat :=
  [0, 0, 0, 0, 0, 0, 0, 1, 0, 0, 0, 100, 0, 0, 0, 50,
   0, 0, 0, 0, 0, 0, 0, 2, 0, 0, 0, 200, 0, 0, 0, 30,
   0, 0, 0, 0, 0, 0, 0, 1, 0, 0, 0, 0, 0, 0, 0, 0]

/-- Two-record index file (records `(3,10,4)` and `(3,20,6)`), used to
instantiate the replay-refinement theorem. -/
def file32 : List Nat :=
  [0, 0, 0, 0, 0, 0, 0, 3, 0, 0, 0, 10, 0, 0, 0, 4,
   0, 0, 0, 0, 0, 0, 0, 3, 0, 0, 0, 20, 0, 0, 0, 6]

/-- C1, counterexample: scenario A as claimed is false on the code — it
claims apply count (`file_count`) 3, but only the two positive-offset
records call `set`, and the tombstone calls `delete`, which does not touch
`file_count`, so the apply count after replay is 2. -/
theorem c1_counterexample :
    ¬ ((NeedleMapper.default.load_idx_file fileA).1.get 1 = none ∧
       (NeedleMapper.default.load_idx_file fileA).1.get 2 = some ⟨200, 30⟩ ∧
       (NeedleMapper.default.load_idx_file fileA).1.file_count = 3 ∧
       (NeedleMapper.default.load_idx_file fileA).1.delete_count = 1 ∧
       (NeedleMapper.default.load_idx_file fileA).1.max_file_key = 2 ∧
       (NeedleMapper.default.load_idx_file fileA).1.content_size = 80 ∧
       (NeedleMapper.default.load_idx_file fileA).1.deleted_byte_count = 50) := by
  decide

/-- C1, amended: loading records `[(1,100,50), (2,200,30), (1,0,0)]` into a
fresh mapper yields `get 1 = none`, `get 2 = some {200,30}`, apply count
(`file_count`) = 2, deleted-event count = 1, maximum key = 2, applied-byte
total = 80, deleted-byte total = 50. -/
theorem c1_scenario_a :
    (NeedleMapper.default.load_idx_file fileA).1.get 1 = none ∧
    (NeedleMapper.default.load_idx_file fileA).1.get 2 = some ⟨200, 30⟩ ∧
    (NeedleMapper.default.load_idx_file fileA).1.file_count = 2 ∧
    (NeedleMapper.default.load_idx_file fileA).1.delete_count = 1 ∧
    (NeedleMapper.default.load_idx_file fileA).1.max_file_key = 2 ∧
    (NeedleMapper.default.load_idx_file fileA).1.content_size = 80 ∧
    (NeedleMapper.default.load_idx_file fileA).1.deleted_byte_count = 50 := by
  decide

/-- C2: every `set(key, loc)` bumps the apply count by exactly 1 and the
applied-byte total by exactly `loc.size`; if a previous Location existed
for the key, the call additionally bumps the deleted-event count by 1 and
the deleted-byte total by the previous Location's size and returns that
previous Location; concretely, `set(5,{10,100})` then `set(5,{20,200})`
returns `{10,100}` with apply count 2, deleted-event count 1, deleted
bytes 100, applied bytes 300 and `get 5 = {20,200}`. -/
theorem c2_set_overwrite_accounting :
    (∀ (m : NeedleMapper) (k : Nat) (v : NeedleValue),
      (m.set k v).2.file_count = m.file_count + 1 ∧
      (m.set k v).2.content_size = m.content_size + v.size ∧
      ∀ prev : NeedleValue, m.get k = some prev →
        (m.set k v).1 = some prev ∧
        (m.set k v).2.delete_count = m.delete_count + 1 ∧
        (m.set k v).2.deleted_byte_count = m.deleted_byte_count + prev.size) ∧
    (((NeedleMapper.default.set 5 ⟨10, 100⟩).2.set 5 ⟨20, 200⟩).1 =
        some ⟨10, 100⟩ ∧
     ((NeedleMapper.default.set 5 ⟨10, 100⟩).2.set 5 ⟨20, 200⟩).2.file_count
        = 2 ∧
     ((NeedleMapper.default.set 5 ⟨10, 100⟩).2.set 5 ⟨20, 200⟩).2.delete_count
        = 1 ∧
     ((NeedleMapper.default.set 5 ⟨10, 100⟩).2.set 5
        ⟨20, 200⟩).2.deleted_byte_count = 100 ∧
     ((NeedleMapper.default.set 5 ⟨10, 100⟩).2.set 5 ⟨20, 200⟩).2.content_size
        = 300 ∧
     ((NeedleMapper.default.set 5 ⟨10, 100⟩).2.set 5 ⟨20, 200⟩).2.get 5 =
        some ⟨20, 200⟩) := by
  refine ⟨?_, by decide⟩
  intro m k v
  refine ⟨set_file_count m k v, set_content_size m k v, ?_⟩
  intro prev hprev
  exact ⟨by rw [set_fst, hprev], (set_deleted_of_some m k v prev hprev).1,
    (set_deleted_of_some m k v prev hprev).2⟩

/-- C2 witness: the overwrite clause applied at the concrete scenario-B
state. -/
theorem c2_set_overwrite_accounting_witness :
    ((NeedleMapper.default.set 5 ⟨10, 100⟩).2.set 5 ⟨20, 200⟩).1 =
      some ⟨10, 100⟩ ∧
    ((NeedleMapper.default.set 5 ⟨10, 100⟩).2.set 5 ⟨20, 200⟩).2.delete_count
      = (NeedleMapper.default.set 5 ⟨10, 100⟩).2.delete_count + 1 := by
  have h := (c2_set_overwrite_accounting.1
    (NeedleMapper.default.set 5 ⟨10, 100⟩).2 5 ⟨20, 200⟩).2.2
    ⟨10, 100⟩ (by decide)
  exact ⟨h.1, h.2.1⟩

/-- C3: for an index file whose length is a multiple of 16, loading a fresh
mapper succeeds and the resulting map state coincides, key by key, with
folding the file's decoded records over the empty map with the spec's
reference step (`set` on positive offset, `delete` on zero offset); later
records for a key therefore override earlier ones. -/
theorem c3_replay_refines_fold (file : List Nat) (h : 16 ∣ file.length) :
    (NeedleMapper.default.load_idx_file file).2 = none ∧
    ∀ k : Nat, (NeedleMapper.default.load_idx_file file).1.get k =
      (fileRecords file).foldl specReplayStep (fun _ => none) k := by
  rw [load_idx_file_ok NeedleMapper.default file h]
  refine ⟨rfl, ?_⟩
  intro k
  have hwf : NeedleMapper.default.WF := List.nodup_nil
  exact foldl_applyRecord_get (fileRecords file) NeedleMapper.default k hwf

/-- C3 witness: the refinement theorem instantiated at a concrete 32-byte
file with two records on the same key, looked up at that key. -/
theorem c3_replay_refines_fold_witness :
    16 ∣ file32.length ∧
    (NeedleMapper.default.load_idx_file file32).1.get 3 =
      (fileRecords file32).foldl specReplayStep (fun _ => none) 3 :=
  ⟨by decide, (c3_replay_refines_fold file32 (by decide)).2 3⟩

/-- C4: an index file whose length is not a multiple of 16 always makes the
scanner (and hence `load_idx_file`) return an error, whatever the handler,
and the handler is still invoked only `file_length / 16` times (the
truncated trailing record is never passed to it); for a multiple-of-16
file the handler runs exactly `file_length / 16` times with no error. -/
theorem c4_truncated_rejection (file : List Nat) :
    (¬ 16 ∣ file.length →
      (∀ (σ : Type) (s : σ)
          (walk : σ → Nat × Nat × Nat → σ × Option String),
        ((walk_index_file file s walk).2).isSome = true) ∧
      walk_index_file file 0 countStep =
        (file.length / 16, some readExactErr) ∧
      (NeedleMapper.default.load_idx_file file).2 = some readExactErr) ∧
    (16 ∣ file.length →
      walk_index_file file 0 countStep = (file.length / 16, none)) := by
  constructor
  · intro h
    refine ⟨?_, ?_, ?_⟩
    · intro σ s walk
      show ((walkLoop walk ((file.length + 15) / 16) file s).2).isSome = true
      apply walkLoop_err_isSome
      omega
    · have hrun := walkLoop_noerr_err countStep countStep_snd
        (file.length / 16) file 0 (by omega) (by omega)
      show walkLoop countStep ((file.length + 15) / 16) file 0 = _
      have hceil : (file.length + 15) / 16 = file.length / 16 + 1 := by omega
      rw [hceil, hrun, foldl_countStep, recordsOf_length]
      simp
    · rw [load_idx_file_err NeedleMapper.default file h]
  · intro h
    have hrun := walkLoop_noerr_ok countStep countStep_snd
      (file.length / 16) file 0 (by omega)
    show walkLoop countStep ((file.length + 15) / 16) file 0 = _
    have hceil : (file.length + 15) / 16 = file.length / 16 := by omega
    rw [hceil, hrun, foldl_countStep, recordsOf_length]
    simp

/-- C4 witness: a 17-byte file is rejected after one handler invocation; a
32-byte file runs the handler exactly twice with no error. -/
theorem c4_truncated_rejection_witness :
    ¬ 16 ∣ (List.replicate 17 (0 : Nat)).length ∧
    walk_index_file (List.replicate 17 (0 : Nat)) 0 countStep =
      ((List.replicate 17 (0 : Nat)).length / 16, some readExactErr) ∧
    16 ∣ (List.replicate 32 (0 : Nat)).length ∧
    walk_index_file (List.replicate 32 (0 : Nat)) 0 countStep =
      ((List.replicate 32 (0 : Nat)).length / 16, none) := by
  refine ⟨by decide, ?_, by decide, ?_⟩
  · exact ((c4_truncated_rejection (List.replicate 17 0)).1 (by decide)).2.1
  · exact (c4_truncated_rejection (List.replicate 32 0)).2 (by decide)

/-- C5: a replayed record with offset 0 removes its key from the map
whatever its size field; `delete` on an absent key is a no-op returning
nothing, leaving the whole mapper (map and all metrics) unchanged; in
particular `delete 99` on a fresh mapper returns nothing and leaves every
metric at zero. -/
theorem c5_tombstone_delete_noop :
    (∀ (m : NeedleMapper) (key size : Nat), m.WF →
      (applyRecord m (key, 0, size)).get key = none) ∧
    (∀ (m : NeedleMapper) (key : Nat), m.get key = none →
      m.delete key = (none, m)) ∧
    NeedleMapper.default.delete 99 = (none, NeedleMapper.default) := by
  refine ⟨?_, ?_, by decide⟩
  · intro m key size hwf
    show (m.delete key).2.get key = none
    rw [NeedleMapper.get_delete m key key hwf, if_pos rfl]
  · intro m key h
    exact NeedleMapper.delete_of_get_none m key h

/-- C5 witness: the tombstone clause applied to a one-entry mapper and the
absent-key clause applied to a fresh mapper. -/
theorem c5_tombstone_delete_noop_witness :
    (applyRecord (NeedleMapper.default.set 7 ⟨1, 2⟩).2 (7, 0, 5)).get 7 =
      none ∧
    NeedleMapper.default.delete 42 = (none, NeedleMapper.default) :=
  ⟨c5_tombstone_delete_noop.1 (NeedleMapper.default.set 7 ⟨1, 2⟩).2 7 5
      (by decide),
   c5_tombstone_delete_noop.2.1 NeedleMapper.default 42 (by decide)⟩

/-- C6: decoding the 16-byte big-endian record obtained by encoding
`(key, offset, size)` — key in bytes 0..8, offset in bytes 8..12, size in
bytes 12..16 — returns exactly `(key, offset, size)` for every key below
2^64 and offset/size below 2^32, and the encoding is exactly 16 bytes. -/
theorem c6_codec_roundtrip (key offset size : Nat) (hk : key < 2 ^ 64)
    (ho : offset < 2 ^ 32) (hs : size < 2 ^ 32) :
    idx_entry (encode key offset size) = (key, offset, size) ∧
    (encode key offset size).length = 16 :=
  ⟨idx_entry_encode key offset size hk ho hs,
   by simp [encode, beBytes_length]⟩

/-- C6 witness: the round trip at the extreme key and offset values. -/
theorem c6_codec_roundtrip_witness :
    (18446744073709551615 : Nat) < 2 ^ 64 ∧
    idx_entry (encode 18446744073709551615 4294967295 12345) =
      (18446744073709551615, 4294967295, 12345) :=
  ⟨by norm_num,
   (c6_codec_roundtrip 18446744073709551615 4294967295 12345
      (by norm_num) (by norm_num) (by norm_num)).1⟩

/-- C7: on a truncated index file (length not a multiple of 16),
`load_idx_file` returns the short-read error, and the mapper is left
exactly in the state obtained by replaying the complete-record prefix —
already-applied records stay applied, with no rollback to the pre-call
state. -/
theorem c7_no_rollback (m : NeedleMapper) (file : List Nat)
    (h : ¬ 16 ∣ file.length) :
    m.load_idx_file file =
      ((fileRecords file).foldl applyRecord m, some readExactErr) :=
  load_idx_file_err m file h

/-- C7 witness: a 17-byte file replayed from a fresh mapper leaves exactly
the one complete record applied and returns the short-read error. -/
theorem c7_no_rollback_witness :
    ¬ 16 ∣ (List.replicate 17 (0 : Nat)).length ∧
    NeedleMapper.default.load_idx_file (List.replicate 17 (0 : Nat)) =
      ((fileRecords (List.replicate 17 (0 : Nat))).foldl applyRecord
         NeedleMapper.default, some readExactErr) :=
  ⟨by decide,
   c7_no_rollback NeedleMapper.default (List.replicate 17 0) (by decide)⟩

/-- C8: all five usage metrics are monotonic under every mapper operation
(`set`, `delete`, `load_idx_file`; `get` takes no state and returns none),
and `set` always adds exactly 1 to the apply count and exactly `loc.size`
to the applied-byte total — overwrites never subtract the overwritten
entry's contribution. -/
theorem c8_metrics_monotonic (m : NeedleMapper) :
    (∀ (k : Nat) (v : NeedleValue),
      MetricLe m.metric (m.set k v).2.metric ∧
      (m.set k v).2.file_count = m.file_count + 1 ∧
      (m.set k v).2.content_size = m.content_size + v.size) ∧
    (∀ k : Nat, MetricLe m.metric (m.delete k).2.metric) ∧
    (∀ file : List Nat, MetricLe m.metric (m.load_idx_file file).1.metric) :=
  ⟨fun k v => ⟨set_metricLe m k v, set_file_count m k v,
      set_content_size m k v⟩,
   fun k => delete_metricLe m k,
   fun file => load_metricLe m file⟩

/-- C8 witness: monotonicity at a concrete overwrite. -/
theorem c8_metrics_monotonic_witness :
    MetricLe NeedleMapper.default.metric
      (NeedleMapper.default.set 1 ⟨2, 3⟩).2.metric :=
  ((c8_metrics_monotonic NeedleMapper.default).1 1 ⟨2, 3⟩).1

/-- C9: in every reachable mapper state the store's keys are pairwise
distinct, the apply count equals the deleted-event count plus the number
of live entries, the applied-byte total equals the deleted-byte total plus
the live bytes, and hence the deleted-byte total never exceeds the
applied-byte total (the caller's live-footprint subtraction cannot
underflow). -/
theorem c9_ledger_invariant (m : NeedleMapper) (h : Reachable m) :
    (NVMap.keys m.needle_value_map).Nodup ∧
    m.file_count = m.delete_count + m.needle_value_map.length ∧
    m.content_size =
      m.deleted_byte_count + NVMap.sizeSum m.needle_value_map ∧
    m.deleted_byte_count ≤ m.content_size := by
  obtain ⟨hwf, hc, hb⟩ := ledger_reachable m h
  refine ⟨hwf, hc, hb, ?_⟩
  show m.metric.deleted_byte_count ≤ m.metric.file_byte_count
  omega

/-- C9 witness: the ledger equations at the reachable one-entry state. -/
theorem c9_ledger_invariant_witness :
    (NeedleMapper.default.set 5 ⟨10, 100⟩).2.file_count =
      (NeedleMapper.default.set 5 ⟨10, 100⟩).2.delete_count +
        (NeedleMapper.default.set 5 ⟨10, 100⟩).2.needle_value_map.length :=
  (c9_ledger_invariant (NeedleMapper.default.set 5 ⟨10, 100⟩).2
    (Reachable.set NeedleMapper.default 5 ⟨10, 100⟩ Reachable.init)).2.1

/-- C10: in every reachable mapper state, every live key is bounded by the
maximum-key metric; `set` sets the metric to `max(current, key)` and
`delete` never changes it. -/
theorem c10_max_key_bound :
    (∀ m : NeedleMapper, Reachable m →
      ∀ k ∈ NVMap.keys m.needle_value_map, k ≤ m.max_file_key) ∧
    (∀ (m : NeedleMapper) (k : Nat) (v : NeedleValue),
      (m.set k v).2.max_file_key = max m.max_file_key k) ∧
    (∀ (m : NeedleMapper) (k : Nat),
      (m.delete k).2.max_file_key = m.max_file_key) :=
  ⟨fun m h => keyBound_reachable m h,
   fun m k v => set_max_file_key m k v,
   fun m k => delete_max_file_key m k⟩

/-- C10 witness: the bound at the reachable one-entry state. -/
theorem c10_max_key_bound_witness :
    5 ≤ (NeedleMapper.default.set 5 ⟨10, 100⟩).2.max_file_key :=
  c10_max_key_bound.1 (NeedleMapper.default.set 5 ⟨10, 100⟩).2
    (Reachable.set NeedleMapper.default 5 ⟨10, 100⟩ Reachable.init) 5
    (by decide)

end Helyim
